import Mathlib

/-!
# Schema dependency resolver — shallow embedding

This file embeds the schema dependency resolver of the repository
(`src/app/shared/get_dependencies.py` and the collection pass of
`src/app/shared/discover_dependencies.py`) as executable Lean definitions and
proves properties of the resolution algorithm.

Modelling conventions:

* The two JSON caches (`procedure_dependencies.json`,
  `object_create_scripts.json`) and the optional database cursor are gathered
  in an `Env` value; the resolver reads them and never writes them.
* Python's shared mutable `processed_objects` set is threaded explicitly: every
  resolution function takes the visited list and returns the updated one.
* Python's unbounded recursion is modelled with an explicit fuel argument;
  `none` means "fuel exhausted".  Termination of the source program is the
  theorem that a computable amount of fuel always suffices.
* The regular expressions of the source are modelled character by character
  over ASCII text with the same alternation, greedy-class and
  case-insensitivity behaviour as Python's `re` on the pattern shapes that
  occur (alternation of literals, `\s+`, `\s*`, `\w+`, `.*` (no DOTALL, so it
  does not cross a newline), optional groups, and character classes).
-/

set_option maxRecDepth 20000

namespace SchemaResolver

/-- Python's `\s` (ASCII range): space, tab, newline, carriage return,
vertical tab, form feed. -/
def isPySpace (c : Char) : Bool :=
  c = ' ' || c = '\t' || c = '\n' || c = '\r' ||
    c = Char.ofNat 11 || c = Char.ofNat 12

/-- The characters excluded from a heuristic table-reference token:
the class `[^\s(),;]` from `get_dependencies.py` line 93. -/
def refStop : List Char := ['(', ')', ',', ';']

/-- A character allowed inside a captured reference token. -/
def isTokChar (c : Char) : Bool :=
  !isPySpace c && !refStop.contains c

/-- Python's `\w` over ASCII: letters, digits, underscore. -/
def isWordChar (c : Char) : Bool :=
  c.isAlphanum || c = '_'

/-- Case-insensitive literal match: consume `kw` from the front of `s`
(each character compared through `Char.toLower`, mirroring `re.IGNORECASE`),
returning the remainder on success. -/
def matchKeyword : List Char → List Char → Option (List Char)
  | [], s => some s
  | _ :: _, [] => none
  | k :: ks, c :: cs =>
    if c.toLower = k.toLower then matchKeyword ks cs else none

/-- `litThen kw cont`: the pattern `kw` (case-insensitive literal) followed by
the rest of the pattern `cont`. -/
def litThen (kw : List Char) (cont : List Char → Bool) (s : List Char) : Bool :=
  match matchKeyword kw s with
  | some r => cont r
  | none => false

/-- `wsThen cont`: the pattern `\s+` followed by `cont` (all backtracking
splits are tried, as in Python's engine). -/
def wsThen (cont : List Char → Bool) : List Char → Bool
  | [] => false
  | c :: cs => isPySpace c && (cont cs || wsThen cont cs)

/-- `wsStar cont`: the pattern `\s*` followed by `cont`. -/
def wsStar (cont : List Char → Bool) : List Char → Bool
  | [] => cont []
  | c :: cs => cont (c :: cs) || (isPySpace c && wsStar cont cs)

/-- `wordThen cont`: the pattern `\w+` followed by `cont`. -/
def wordThen (cont : List Char → Bool) : List Char → Bool
  | [] => false
  | c :: cs => isWordChar c && (cont cs || wordThen cont cs)

/-- `seekNoNL cont`: the pattern `.*` followed by `cont`.  Without
`re.DOTALL`, `.` matches any character except a newline. -/
def seekNoNL (cont : List Char → Bool) : List Char → Bool
  | [] => cont []
  | c :: cs => cont (c :: cs) || (if c = '\n' then false else seekNoNL cont cs)

/-- `optThen g cont`: the pattern `(g)?` followed by `cont`. -/
def optThen (g : (List Char → Bool) → List Char → Bool)
    (cont : List Char → Bool) (s : List Char) : Bool :=
  g cont s || cont s

/-- `re.search` semantics: try the matcher at every starting position,
including the empty suffix at the end. -/
def searchWith (m : List Char → Bool) : List Char → Bool
  | [] => m []
  | c :: cs => m (c :: cs) || searchWith m cs

/-- Accept the empty remainder: the end of a pattern. -/
def patEnd : List Char → Bool := fun _ => true

/-- Pattern `FOREIGN\s+KEY` (`check_enforced_dependencies`, pattern list
entry 1). -/
def patForeignKey : List Char → Bool :=
  litThen "FOREIGN".toList (wsThen (litThen "KEY".toList patEnd))

/-- Pattern `REFERENCES\s+\w+(\.\w+)?(\s*\(\w+\))?` (entry 2). -/
def patReferencesTail : List Char → Bool :=
  litThen "REFERENCES".toList (wsThen (wordThen
    (optThen (fun k => litThen ['.'] (wordThen k))
      (optThen (fun k => wsStar (litThen ['('] (wordThen (litThen [')'] k))))
        patEnd))))

/-- Pattern `CONSTRAINT\s+\w+\s+FOREIGN\s+KEY` (entry 3). -/
def patConstraintFK : List Char → Bool :=
  litThen "CONSTRAINT".toList (wsThen (wordThen (wsThen
    (litThen "FOREIGN".toList (wsThen (litThen "KEY".toList patEnd))))))

/-- Pattern `ALTER\s+TABLE.*ADD\s+.*FOREIGN\s+KEY` (entry 4). -/
def patAlterAddFK : List Char → Bool :=
  litThen "ALTER".toList (wsThen (litThen "TABLE".toList (seekNoNL
    (litThen "ADD".toList (wsThen (seekNoNL
      (litThen "FOREIGN".toList (wsThen (litThen "KEY".toList patEnd)))))))))

/-- Pattern `ALTER\s+TABLE.*ADD\s+CONSTRAINT.*FOREIGN\s+KEY` (entry 5). -/
def patAlterAddConstraintFK : List Char → Bool :=
  litThen "ALTER".toList (wsThen (litThen "TABLE".toList (seekNoNL
    (litThen "ADD".toList (wsThen (litThen "CONSTRAINT".toList (seekNoNL
      (litThen "FOREIGN".toList (wsThen (litThen "KEY".toList patEnd))))))))))

/-- Pattern `ALTER\s+TABLE.*ADD\s+.*REFERENCES` (entry 6). -/
def patAlterAddReferences : List Char → Bool :=
  litThen "ALTER".toList (wsThen (litThen "TABLE".toList (seekNoNL
    (litThen "ADD".toList (wsThen (seekNoNL
      (litThen "REFERENCES".toList patEnd)))))))

/-- Pattern `WITH\s+CHECK\s+ADD\s+CONSTRAINT.*FOREIGN\s+KEY` (entry 7). -/
def patWithCheckAddFK : List Char → Bool :=
  litThen "WITH".toList (wsThen (litThen "CHECK".toList (wsThen
    (litThen "ADD".toList (wsThen (litThen "CONSTRAINT".toList (seekNoNL
      (litThen "FOREIGN".toList (wsThen (litThen "KEY".toList patEnd))))))))))

/-- `check_enforced_dependencies` over a character list: `False` for an empty
(or missing) script, otherwise true iff any of the seven foreign-key patterns
matches somewhere in the script. -/
def checkEnforcedL (s : List Char) : Bool :=
  if s.isEmpty then false
  else
    searchWith patForeignKey s || searchWith patReferencesTail s ||
    searchWith patConstraintFK s || searchWith patAlterAddFK s ||
    searchWith patAlterAddConstraintFK s || searchWith patAlterAddReferences s ||
    searchWith patWithCheckAddFK s

/-- `check_enforced_dependencies` (`get_dependencies.py` lines 227-262). -/
def check_enforced_dependencies (script : String) : Bool :=
  checkEnforcedL script.toList

/-- The alternation `FROM|JOIN|INTO|UPDATE|INSERT INTO`, in source order. -/
def refKeywords : List (List Char) :=
  ["FROM".toList, "JOIN".toList, "INTO".toList,
   "UPDATE".toList, "INSERT INTO".toList]

/-- After a keyword: `\s+` then the captured `[^\s(),;]+` token.  Both classes
are greedy and disjoint from what may follow, so maximal munch is exact. -/
def grabTok (rest : List Char) : Option (List Char × List Char) :=
  let ws := rest.takeWhile isPySpace
  if ws.isEmpty then none
  else
    let rest2 := rest.dropWhile isPySpace
    let tok := rest2.takeWhile isTokChar
    if tok.isEmpty then none else some (tok, rest2.drop tok.length)

/-- Try each alternative keyword in order at the current position; an
alternative whose keyword matches but whose `\s+`/token part fails backtracks
to the next alternative, as in Python's engine. -/
def tryKeywords : List (List Char) → List Char → Option (List Char × List Char)
  | [], _ => none
  | kw :: kws, s =>
    match matchKeyword kw s with
    | some rest =>
      match grabTok rest with
      | some tr => some tr
      | none => tryKeywords kws s
    | none => tryKeywords kws s

/-- `re.findall` scan: leftmost, non-overlapping matches; scanning resumes
after the end of each match.  Every step consumes at least one character, so
`length + 1` fuel is always enough (see `scanTokens_le`). -/
def scanTokens : Nat → List Char → List (List Char)
  | 0, _ => []
  | _ + 1, [] => []
  | fuel + 1, c :: cs =>
    match tryKeywords refKeywords (c :: cs) with
    | some (tok, rest) => tok :: scanTokens fuel rest
    | none => scanTokens fuel cs

/-- The heuristic reference extraction
`re.findall(r"(?:FROM|JOIN|INTO|UPDATE|INSERT INTO)\s+([^\s(),;]+)", script,
re.IGNORECASE)` (`get_dependencies.py` lines 92-96). -/
def findRefs (script : String) : List String :=
  (scanTokens (script.toList.length + 1) script.toList).map fun l => ⟨l⟩

/-- The characters stripped from each end of a heuristic match by
`ref.strip(...)` at `get_dependencies.py` line 99: open bracket, close
bracket, double quote (code 34), single quote (code 39), backtick (code 96). -/
def stripSet : List Char := ['[', ']', Char.ofNat 34, Char.ofNat 39, Char.ofNat 96]

/-- Python `str.strip(chars)`: remove characters of the set from both ends
(and only from the ends) of the string. -/
def stripEndsL (s : List Char) : List Char :=
  ((s.dropWhile (fun c => stripSet.contains c)).reverse.dropWhile
    (fun c => stripSet.contains c)).reverse

/-- The delimiter strip of a heuristic match, on a string. -/
def stripEnds (s : String) : String := ⟨stripEndsL s.toList⟩

/-- Python `s.split(".")[-1]`: the part after the last dot (the whole string
when there is no dot). -/
def lastCompL (s : List Char) : List Char :=
  (s.reverse.takeWhile (fun c => decide (c ≠ '.'))).reverse

/-- `s.split(".")[-1]` on a string. -/
def lastComp (s : String) : String := ⟨lastCompL s.toList⟩

/-- Python `s.split(".", 1)` combined with the `if "." in s` guard used in
both discovery phases: `(schema part, name part)` when a dot is present,
`(None, s)` otherwise. -/
def splitSchemaL (s : List Char) : Option (List Char) × List Char :=
  if '.' ∈ s then
    (some (s.takeWhile (fun c => decide (c ≠ '.'))),
      (s.dropWhile (fun c => decide (c ≠ '.'))).drop 1)
  else (none, s)

/-- `s.split(".", 1)` on a string. -/
def splitSchema (s : String) : Option String × String :=
  match splitSchemaL s.toList with
  | (some a, b) => (some ⟨a⟩, ⟨b⟩)
  | (none, b) => (none, ⟨b⟩)

/-- An auto-populated column row as produced by `get_table_info`. -/
structure ColumnInfo where
  name : String
  population_type : Option String
  definition : Option String
deriving DecidableEq

/-- One entry of a `dependencies` array in `procedure_dependencies.json`:
`name` is mandatory (the code indexes `dep["name"]`), `type` is read with
`dep.get("type")` and so may be absent. -/
structure Dep where
  name : String
  type : Option String
deriving DecidableEq

/-- One entry of `procedure_dependencies.json`. -/
structure Proc where
  name : String
  dependencies : List Dep

/-- One entry of `object_create_scripts.json`: `name` is mandatory (used as
the lookup key), `type` and `definition` are read through `.get` and so may
be absent. -/
structure ObjScript where
  name : String
  type : Option String
  definition : Option String

/-- The resolved dependency record (the dict built by `get_dependencies`).
`type` is an `Option` because the heuristic branch assigns
`create_scripts_lookup[full_name].get("type")`, which may be `None`.
`create_script` and `view_dependencies` are `Option`s because the
corresponding keys are only conditionally added. -/
inductive DRec where
  | mk : String → Option String → Option String → Bool → List ColumnInfo →
      Option String → Option (List DRec) → DRec

/-- The `name` field of a dependency record. -/
def DRec.name : DRec → String
  | .mk n _ _ _ _ _ _ => n

/-- The `schemaName` field of a dependency record. -/
def DRec.schemaName : DRec → Option String
  | .mk _ s _ _ _ _ _ => s

/-- The `type` field of a dependency record. -/
def DRec.type : DRec → Option String
  | .mk _ _ t _ _ _ _ => t

/-- The `has_enforced_dependencies` field of a dependency record. -/
def DRec.has_enforced_dependencies : DRec → Bool
  | .mk _ _ _ e _ _ _ => e

/-- The `auto_populated_columns` field of a dependency record. -/
def DRec.auto_populated_columns : DRec → List ColumnInfo
  | .mk _ _ _ _ a _ _ => a

/-- The `create_script` field of a dependency record (absent = not added). -/
def DRec.create_script : DRec → Option String
  | .mk _ _ _ _ _ c _ => c

/-- The `view_dependencies` field of a dependency record (absent = not
added). -/
def DRec.view_dependencies : DRec → Option (List DRec)
  | .mk _ _ _ _ _ _ v => v

/-- The read-only environment of one discovery snapshot: the two JSON caches
and the optional database cursor.  `cursor = none` models a missing
`CONNECTION_STRING`; when present it abstracts `get_table_info` as a pure
lookup from `(schema_name, table_name)` to the auto-populated column rows. -/
structure Env where
  procs : List Proc
  scripts : List ObjScript
  cursor : Option (Option String → String → List ColumnInfo)

/-- The dict comprehension `{obj["name"]: obj for obj in all_object_scripts}`:
a later entry with the same name overrides an earlier one. -/
def lookupScript (scripts : List ObjScript) (n : String) : Option ObjScript :=
  scripts.foldl (fun acc o => if o.name = n then some o else acc) none

/-- The linear search for the first procedure entry whose `name` matches,
returning its `dependencies` (default `[]`). -/
def lookupProcDeps (env : Env) (n : String) : List Dep :=
  match env.procs.find? (fun p => decide (p.name = n)) with
  | some p => p.dependencies
  | none => []

/-- `f"{schema_name}.{table_name}" if schema_name else table_name`. -/
def joinName : Option String × String → String
  | (some s, t) => s ++ "." ++ t
  | (none, t) => t

/-- `get_table_info(cursor, schema, table)` when a cursor exists, `[]`
otherwise (the `and cursor` guards). -/
def cursorCols (env : Env) (schema : Option String) (table : String) :
    List ColumnInfo :=
  match env.cursor with
  | some f => f schema table
  | none => []

/-- Processing of one formal catalog dependency (`get_dependencies.py` lines
45-83): split the name, build the record, and when a create script is cached
attach it, compute enforcement, auto-populated columns for tables, and recurse
for views (threading the visited list through `recur`). -/
def stepFormal (env : Env)
    (recur : String → List String → Option (List DRec × List String))
    (dep : Dep) (v : List String) : Option (DRec × List String) :=
  let parts := splitSchema dep.name
  let ty : Option String := some (dep.type.getD "UNKNOWN")
  match lookupScript env.scripts dep.name with
  | none => some (DRec.mk parts.2 parts.1 ty false [] none none, v)
  | some obj =>
    let cs := obj.definition.getD ""
    let enforced := check_enforced_dependencies cs
    let autoCols := if dep.type = some "TABLE" then cursorCols env parts.1 parts.2 else []
    if dep.type = some "VIEW" then
      match recur dep.name v with
      | none => none
      | some (vd, v2) =>
        some (DRec.mk parts.2 parts.1 ty enforced autoCols (some cs) (some vd), v2)
    else some (DRec.mk parts.2 parts.1 ty enforced autoCols (some cs) none, v)

/-- The loop over the formal catalog dependencies, in catalog order. -/
def processFormal (env : Env)
    (recur : String → List String → Option (List DRec × List String)) :
    List Dep → List String → Option (List DRec × List String)
  | [], v => some ([], v)
  | dep :: rest, v =>
    match stepFormal env recur dep v with
    | none => none
    | some (r, v2) =>
      match processFormal env recur rest v2 with
      | none => none
      | some (rs, v3) => some (r :: rs, v3)

/-- The de-duplication test of the heuristic phase (line 102): skip a match
whose cleaned trailing name component equals the `name` of a record already
collected. -/
def skipRef (acc : List DRec) (tok : String) : Bool :=
  acc.any fun d => decide (d.name = lastComp (stripEnds tok))

/-- Processing of one non-skipped heuristic match (lines 98-146): strip
delimiters, split schema from name, mark as `REFERENCED`, and when the full
name has a cached create script attach it, re-type the record from the cache,
compute enforcement and auto-populated columns, and recurse for views. -/
def stepRef (env : Env)
    (recur : String → List String → Option (List DRec × List String))
    (tok : String) (v : List String) : Option (DRec × List String) :=
  let parts := splitSchema (stripEnds tok)
  let fullName := joinName parts
  match lookupScript env.scripts fullName with
  | none => some (DRec.mk parts.2 parts.1 (some "REFERENCED") false [] none none, v)
  | some obj =>
    let cs := obj.definition.getD ""
    let enforced := check_enforced_dependencies cs
    let autoCols :=
      if obj.type = some "TABLE" ∧ parts.2.startsWith "#" = false then
        cursorCols env parts.1 parts.2
      else []
    if obj.type = some "VIEW" then
      match recur fullName v with
      | none => none
      | some (vd, v2) =>
        some (DRec.mk parts.2 parts.1 obj.type enforced autoCols (some cs) (some vd), v2)
    else some (DRec.mk parts.2 parts.1 obj.type enforced autoCols (some cs) none, v)

/-- The loop over the heuristic matches, appending each non-skipped record to
the growing dependency list (the skip test inspects the grown list). -/
def processRefs (env : Env)
    (recur : String → List String → Option (List DRec × List String)) :
    List String → List DRec → List String → Option (List DRec × List String)
  | [], acc, v => some (acc, v)
  | tok :: rest, acc, v =>
    if skipRef acc tok then processRefs env recur rest acc v
    else
      match stepRef env recur tok v with
      | none => none
      | some (r, v2) => processRefs env recur rest (acc ++ [r]) v2

/-- The body of `get_dependencies` with explicit fuel and threaded visited
list.  Membership short-circuiting (lines 13-14) happens before fuel is
consumed; a `none` result means the fuel ran out, never a source-level
outcome. -/
def getDeps (env : Env) : Nat → String → List String → Option (List DRec × List String)
  | 0, n, v => if n ∈ v then some ([], v) else none
  | Nat.succ fuel, n, v =>
    if n ∈ v then some ([], v)
    else
      match processFormal env (getDeps env fuel) (lookupProcDeps env n) (n :: v) with
      | none => none
      | some (recs, v2) =>
        match (lookupScript env.scripts n).bind ObjScript.definition with
        | none => some (recs, v2)
        | some script =>
          if script.isEmpty then some (recs, v2)
          else processRefs env (getDeps env fuel) (findRefs script) recs v2

/-- `get_dependencies(procedure_name, processed_objects=None)`: a `none`
visited argument is replaced by a fresh empty set at every call (lines
8-10). -/
def get_dependencies (env : Env) (fuel : Nat) (procedure_name : String)
    (processed_objects : Option (List String)) :
    Option (List DRec × List String) :=
  getDeps env fuel procedure_name (processed_objects.getD [])

/-- Two successive top-level resolutions, each with the defaulted (`None`)
visited argument: the pair of their results. -/
def runTwoTopLevel (env : Env) (fuel : Nat) (p : String) :
    Option (List DRec × List String) × Option (List DRec × List String) :=
  (get_dependencies env fuel p none, get_dependencies env fuel p none)

/-- `get_complete_table_definition` (`discover_dependencies.py` lines 42-280):
the DDL reconstruction itself is database work, abstracted as an oracle
returning `Except` — `.error` models a raised exception, which the
function's handler turns into `None`; `.ok none` models the no-definition
result. -/
def get_complete_table_definition (ddl : String → Except String (Option String))
    (table_name : String) : Option String :=
  match ddl table_name with
  | Except.error _ => none
  | Except.ok d => d

/-- The tables pass of `collect_object_create_scripts` (lines 284-308): for
each table name, reconstruct the DDL and append a cache entry only when a
non-empty definition was produced (`if table_def:`); otherwise continue with
the remaining objects. -/
def collectTables (ddl : String → Except String (Option String)) :
    List String → List ObjScript
  | [] => []
  | t :: ts =>
    match get_complete_table_definition ddl t with
    | some d =>
      if d.isEmpty then collectTables ddl ts
      else ⟨t, some "TABLE", some d⟩ :: collectTables ddl ts
    | none => collectTables ddl ts

/-!
## Helper lemmas: counting, lookup, and visited-list monotonicity
-/

theorem length_filter_imp {α} (l : List α) {p q : α → Bool}
    (h : ∀ x, p x = true → q x = true) :
    (l.filter p).length ≤ (l.filter q).length := by
  induction l with
  | nil => simp
  | cons a t ih =>
    rw [List.filter_cons, List.filter_cons]
    by_cases hp : p a = true
    · rw [if_pos hp, if_pos (h a hp)]
      simpa using ih
    · rw [if_neg hp]
      by_cases hq : q a = true
      · rw [if_pos hq]
        exact ih.trans (by simp)
      · rw [if_neg hq]; exact ih

theorem length_filter_lt {α} {l : List α} {p q : α → Bool} {a : α}
    (ha : a ∈ l) (hpa : p a = false) (hqa : q a = true)
    (h : ∀ x, p x = true → q x = true) :
    (l.filter p).length < (l.filter q).length := by
  induction l with
  | nil => cases ha
  | cons b t ih =>
    rw [List.filter_cons, List.filter_cons]
    rcases List.mem_cons.mp ha with rfl | hat
    · rw [if_neg (by simp [hpa]), if_pos hqa]
      have := length_filter_imp t h
      simp only [List.length_cons]
      omega
    · by_cases hpb : p b = true
      · rw [if_pos hpb, if_pos (h b hpb)]
        have := ih hat
        simp only [List.length_cons]
        omega
      · rw [if_neg hpb]
        have := ih hat
        by_cases hqb : q b = true
        · rw [if_pos hqb]
          simp only [List.length_cons]
          omega
        · rw [if_neg hqb]; exact this

theorem lookup_fold_const {n : String} :
    ∀ (l : List ObjScript) (acc : Option ObjScript),
      n ∉ l.map ObjScript.name →
      l.foldl (fun acc o => if o.name = n then some o else acc) acc = acc := by
  intro l
  induction l with
  | nil => intro acc _; rfl
  | cons x t ih =>
    intro acc hmem
    simp only [List.map_cons, List.mem_cons, not_or] at hmem
    simp only [List.foldl_cons]
    rw [if_neg (fun hx => hmem.1 hx.symm), ih acc hmem.2]

theorem lookupScript_mem {scripts : List ObjScript} {n : String} {o : ObjScript}
    (h : lookupScript scripts n = some o) : n ∈ scripts.map ObjScript.name := by
  by_contra hn
  rw [lookupScript, lookup_fold_const scripts none hn] at h
  cases h

theorem stepFormal_vis {env : Env} {recur} {dep : Dep} {v : List String}
    {out : DRec × List String}
    (hrec : ∀ t w p, recur t w = some p → w ⊆ p.2)
    (h : stepFormal env recur dep v = some out) : v ⊆ out.2 := by
  simp only [stepFormal] at h
  split at h
  · cases h; exact fun _ hx => hx
  · split at h
    · split at h
      · cases h
      · next heq => cases h; exact hrec _ _ _ heq
    · cases h; exact fun _ hx => hx

theorem processFormal_vis {env : Env} {recur}
    (hrec : ∀ t w p, recur t w = some p → w ⊆ p.2) :
    ∀ {deps : List Dep} {v : List String} {out : List DRec × List String},
      processFormal env recur deps v = some out → v ⊆ out.2 := by
  intro deps
  induction deps with
  | nil => intro v out h; cases h; exact fun _ hx => hx
  | cons dep rest ih =>
    intro v out h
    simp only [processFormal] at h
    split at h
    · cases h
    · next r v2 hstep =>
      split at h
      · cases h
      · next rs v3 hrest =>
        cases h
        have h2 : v2 ⊆ v3 := ih hrest
        exact (stepFormal_vis hrec hstep).trans h2

theorem stepRef_vis {env : Env} {recur} {tok : String} {v : List String}
    {out : DRec × List String}
    (hrec : ∀ t w p, recur t w = some p → w ⊆ p.2)
    (h : stepRef env recur tok v = some out) : v ⊆ out.2 := by
  simp only [stepRef] at h
  split at h
  · cases h; exact fun _ hx => hx
  · split at h
    · split at h
      · cases h
      · next heq => cases h; exact hrec _ _ _ heq
    · cases h; exact fun _ hx => hx

theorem processRefs_vis {env : Env} {recur}
    (hrec : ∀ t w p, recur t w = some p → w ⊆ p.2) :
    ∀ {toks : List String} {acc : List DRec} {v : List String}
      {out : List DRec × List String},
      processRefs env recur toks acc v = some out → v ⊆ out.2 := by
  intro toks
  induction toks with
  | nil => intro acc v out h; cases h; exact fun _ hx => hx
  | cons tok rest ih =>
    intro acc v out h
    simp only [processRefs] at h
    split at h
    · exact ih h
    · split at h
      · cases h
      · next r v2 hstep =>
        exact (stepRef_vis hrec hstep).trans (ih h)

theorem getDeps_mem_visited {env : Env} {fuel : Nat} {n : String}
    {v : List String} (h : n ∈ v) : getDeps env fuel n v = some ([], v) := by
  cases fuel <;> simp [getDeps, h]

theorem getDeps_vis (env : Env) :
    ∀ (fuel : Nat) {n : String} {v : List String} {out : List DRec × List String},
      getDeps env fuel n v = some out → v ⊆ out.2 := by
  intro fuel
  induction fuel with
  | zero =>
    intro n v out h
    simp only [getDeps] at h
    split at h
    · cases h; exact fun _ hx => hx
    · cases h
  | succ fuel ih =>
    intro n v out h
    simp only [getDeps] at h
    split at h
    · cases h; exact fun _ hx => hx
    · have hrec : ∀ t w p, getDeps env fuel t w = some p → w ⊆ p.2 :=
        fun t w p hp => ih hp
      have hsub : v ⊆ n :: v := List.subset_cons_self _ _
      split at h
      · cases h
      · next recs v2 hpf =>
        have h1 : v ⊆ v2 := hsub.trans (processFormal_vis hrec hpf)
        split at h
        · cases h; exact h1
        · split at h
          · cases h; exact h1
          · exact h1.trans (processRefs_vis hrec h)

theorem getDeps_mem_self {env : Env} {fuel : Nat} {n : String}
    {v : List String} {out : List DRec × List String}
    (h : getDeps env fuel n v = some out) : n ∈ out.2 := by
  cases fuel with
  | zero =>
    simp only [getDeps] at h
    split at h
    · next hm => cases h; exact hm
    · cases h
  | succ fuel =>
    simp only [getDeps] at h
    split at h
    · next hm => cases h; exact hm
    · have hrec : ∀ t w p, getDeps env fuel t w = some p → w ⊆ p.2 :=
        fun t w p hp => getDeps_vis env fuel hp
      split at h
      · cases h
      · next recs v2 hpf =>
        have h1 : n ∈ v2 := processFormal_vis hrec hpf (List.mem_cons_self _ _)
        split at h
        · cases h; exact h1
        · split at h
          · cases h; exact h1
          · exact processRefs_vis hrec h h1

/-!
## Termination: enough fuel always exists

Every recursive call of `get_dependencies` targets a key of the
create-scripts cache (both recursion sites are guarded by a successful cache
lookup), and every non-short-circuited call adds its name to the visited
list, so the number of unvisited cache keys strictly decreases along any
chain of recursive calls.
-/

/-- The names an object resolution can recurse into: the keys of the
create-scripts cache. -/
def scriptNames (env : Env) : List String := env.scripts.map ObjScript.name

/-- The number of distinct cache keys not yet visited. -/
def measR (env : Env) (v : List String) : Nat :=
  ((scriptNames env).dedup.filter (fun x => decide (x ∉ v))).length

/-- `recur` resolves every cache key, from any visited list extending the
baseline `v0`, and only grows the visited list. -/
def RecOK (env : Env) (v0 : List String)
    (recur : String → List String → Option (List DRec × List String)) : Prop :=
  ∀ t w, v0 ⊆ w → t ∈ scriptNames env →
    ∃ p, recur t w = some p ∧ w ⊆ p.2

theorem stepFormal_tot {env : Env} {v0 : List String} {recur}
    (hrec : RecOK env v0 recur) (dep : Dep) {v : List String} (hv : v0 ⊆ v) :
    ∃ p, stepFormal env recur dep v = some p ∧ v ⊆ p.2 := by
  simp only [stepFormal]
  split
  · exact ⟨_, rfl, fun _ hx => hx⟩
  · next obj hls =>
    by_cases hvw : dep.type = some "VIEW"
    · obtain ⟨⟨vd, v2⟩, hp, hsub⟩ :=
        hrec dep.name v hv (lookupScript_mem hls)
      rw [if_pos hvw, hp]
      exact ⟨_, rfl, hsub⟩
    · rw [if_neg hvw]
      exact ⟨_, rfl, fun _ hx => hx⟩

theorem processFormal_tot {env : Env} {v0 : List String} {recur}
    (hrec : RecOK env v0 recur) :
    ∀ (deps : List Dep) {v : List String}, v0 ⊆ v →
      ∃ p, processFormal env recur deps v = some p ∧ v ⊆ p.2 := by
  intro deps
  induction deps with
  | nil => intro v hv; exact ⟨_, rfl, fun _ hx => hx⟩
  | cons dep rest ih =>
    intro v hv
    obtain ⟨⟨r, v2⟩, hstep, hsub⟩ := stepFormal_tot hrec dep hv
    obtain ⟨⟨rs, v3⟩, hrest, hsub2⟩ := ih (hv.trans hsub)
    exact ⟨(r :: rs, v3), by simp only [processFormal, hstep, hrest],
      hsub.trans hsub2⟩

theorem stepRef_tot {env : Env} {v0 : List String} {recur}
    (hrec : RecOK env v0 recur) (tok : String) {v : List String} (hv : v0 ⊆ v) :
    ∃ p, stepRef env recur tok v = some p ∧ v ⊆ p.2 := by
  simp only [stepRef]
  split
  · exact ⟨_, rfl, fun _ hx => hx⟩
  · next obj hls =>
    by_cases hvw : obj.type = some "VIEW"
    · obtain ⟨⟨vd, v2⟩, hp, hsub⟩ := hrec _ v hv (lookupScript_mem hls)
      rw [if_pos hvw, hp]
      exact ⟨_, rfl, hsub⟩
    · rw [if_neg hvw]
      exact ⟨_, rfl, fun _ hx => hx⟩

theorem processRefs_tot {env : Env} {v0 : List String} {recur}
    (hrec : RecOK env v0 recur) :
    ∀ (toks : List String) (acc : List DRec) {v : List String}, v0 ⊆ v →
      ∃ p, processRefs env recur toks acc v = some p ∧ v ⊆ p.2 := by
  intro toks
  induction toks with
  | nil => intro acc v hv; exact ⟨_, rfl, fun _ hx => hx⟩
  | cons tok rest ih =>
    intro acc v hv
    by_cases hsk : skipRef acc tok = true
    · obtain ⟨p, hp, hsub⟩ := ih acc hv
      exact ⟨p, by simp only [processRefs, if_pos hsk, hp], hsub⟩
    · obtain ⟨⟨r, v2⟩, hstep, hsub⟩ := stepRef_tot hrec tok hv
      obtain ⟨p, hp, hsub2⟩ := ih (acc ++ [r]) (hv.trans hsub)
      exact ⟨p, by simp only [processRefs, if_neg hsk, hstep, hp],
        hsub.trans hsub2⟩

theorem getDeps_tot (env : Env) :
    ∀ (fuel : Nat) (n : String) (v : List String),
      measR env (n :: v) < fuel →
      ∃ p, getDeps env fuel n v = some p := by
  intro fuel
  induction fuel with
  | zero => intro n v h; exact absurd h (Nat.not_lt_zero _)
  | succ fuel ih =>
    intro n v hm
    by_cases hv : n ∈ v
    · exact ⟨([], v), getDeps_mem_visited hv⟩
    · have hrec : RecOK env (n :: v) (getDeps env fuel) := by
        intro t w hw ht
        by_cases htw : t ∈ w
        · exact ⟨([], w), getDeps_mem_visited htw, fun _ hx => hx⟩
        · have h1 : measR env (t :: w) < measR env (n :: v) := by
            apply length_filter_lt (List.mem_dedup.mpr ht)
            · simp
            · simp only [decide_eq_true_eq]
              exact fun hmem => htw (hw hmem)
            · intro x hx
              simp only [decide_eq_true_eq] at hx ⊢
              exact fun hmem => hx (List.mem_cons_of_mem _ (hw hmem))
          obtain ⟨p, hp⟩ := ih t w (by omega)
          exact ⟨p, hp, getDeps_vis env fuel hp⟩
      obtain ⟨⟨recs, v2⟩, hpf, hsub⟩ :=
        processFormal_tot hrec (lookupProcDeps env n) (fun _ hx => hx)
      simp only [getDeps, if_neg hv, hpf]
      cases hscr : (lookupScript env.scripts n).bind ObjScript.definition with
      | none => exact ⟨_, rfl⟩
      | some script =>
        dsimp only
        by_cases hemp : script.isEmpty = true
        · rw [if_pos hemp]; exact ⟨_, rfl⟩
        · rw [if_neg hemp]
          obtain ⟨p, hp, _⟩ := processRefs_tot hrec (findRefs script) recs hsub
          exact ⟨p, hp⟩

/-!
## Structure of the produced list
-/

theorem processRefs_prefix {env : Env} {recur} :
    ∀ {toks : List String} {acc : List DRec} {v : List String}
      {out : List DRec × List String},
      processRefs env recur toks acc v = some out →
      ∃ tail, out.1 = acc ++ tail := by
  intro toks
  induction toks with
  | nil =>
    intro acc v out h
    cases h
    exact ⟨[], (List.append_nil _).symm⟩
  | cons tok rest ih =>
    intro acc v out h
    simp only [processRefs] at h
    split at h
    · exact ih h
    · split at h
      · cases h
      · next r v2 hstep =>
        obtain ⟨tail, ht⟩ := ih h
        exact ⟨r :: tail, by rw [ht, List.append_assoc]; rfl⟩

theorem stepFormal_name {env : Env} {recur} {dep : Dep} {v : List String}
    {out : DRec × List String} (h : stepFormal env recur dep v = some out) :
    out.1.name = (splitSchema dep.name).2 := by
  simp only [stepFormal] at h
  split at h
  · cases h; rfl
  · split at h
    · split at h
      · cases h
      · cases h; rfl
    · cases h; rfl

theorem processFormal_names {env : Env} {recur} :
    ∀ {deps : List Dep} {v : List String} {out : List DRec × List String},
      processFormal env recur deps v = some out →
      out.1.length = deps.length ∧
      ∀ i dep, deps.get? i = some dep →
        ∃ r, out.1.get? i = some r ∧ r.name = (splitSchema dep.name).2 := by
  intro deps
  induction deps with
  | nil =>
    intro v out h
    cases h
    exact ⟨rfl, fun i dep h => by cases i <;> cases h⟩
  | cons dep rest ih =>
    intro v out h
    simp only [processFormal] at h
    split at h
    · cases h
    · next r v2 hstep =>
      split at h
      · cases h
      · next rs v3 hrest =>
        cases h
        obtain ⟨hlen, hnames⟩ := ih hrest
        refine ⟨by simp [hlen], ?_⟩
        intro i d hd
        cases i with
        | zero =>
          simp only [List.get?_cons_zero, Option.some.injEq] at hd
          subst hd
          exact ⟨r, rfl, stepFormal_name hstep⟩
        | succ i =>
          simp only [List.get?_cons_succ] at hd ⊢
          exact hnames i d hd

/-- A formal dependency of type VIEW with a cached script: the step recurses
and stores the result in `view_dependencies` (with no auto-populated columns,
as VIEW is not TABLE). -/
theorem stepFormal_view {env : Env} {recur} {dep : Dep} {v : List String}
    {o : ObjScript} {vd : List DRec} {v2 : List String}
    (hty : dep.type = some "VIEW")
    (hls : lookupScript env.scripts dep.name = some o)
    (hr : recur dep.name v = some (vd, v2)) :
    stepFormal env recur dep v =
      some (DRec.mk (splitSchema dep.name).2 (splitSchema dep.name).1
        (some "VIEW") (check_enforced_dependencies (o.definition.getD ""))
        [] (some (o.definition.getD "")) (some vd), v2) := by
  simp [stepFormal, hls, hty, hr]

theorem processFormal_view_at {env : Env} {recur} :
    ∀ {deps : List Dep} {v : List String} {out : List DRec × List String}
      {i : Nat} {dep : Dep} {o : ObjScript} {pre : List DRec × List String},
      processFormal env recur deps v = some out →
      deps.get? i = some dep →
      dep.type = some "VIEW" →
      lookupScript env.scripts dep.name = some o →
      processFormal env recur (deps.take i) v = some pre →
      ∃ vd vout r, recur dep.name pre.2 = some (vd, vout) ∧
        out.1.get? i = some r ∧ r.view_dependencies = some vd := by
  intro deps
  induction deps with
  | nil => intro v out i dep o pre _ hd; cases i <;> cases hd
  | cons d rest ih =>
    intro v out i dep o pre h hd hty hls hpre
    cases i with
    | zero =>
      simp only [List.get?_cons_zero, Option.some.injEq] at hd
      subst hd
      simp only [List.take_zero, processFormal, Option.some.injEq] at hpre
      simp only [processFormal] at h
      cases hr : recur d.name v with
      | none =>
        have hs : stepFormal env recur d v = none := by
          simp [stepFormal, hls, hty, hr]
        rw [hs] at h
        cases h
      | some p =>
        obtain ⟨vd, v2⟩ := p
        rw [stepFormal_view hty hls hr] at h
        dsimp only at h
        split at h
        · cases h
        · next rs v3 hrest =>
          cases h
          refine ⟨vd, v2, _, ?_, rfl, rfl⟩
          rw [← hpre]
          exact hr
    | succ i =>
      simp only [List.get?_cons_succ] at hd
      simp only [List.take_succ_cons, processFormal] at h hpre
      split at h
      · cases h
      · next r v2 hstep =>
        rw [hstep] at hpre
        dsimp only at hpre
        split at h
        · cases h
        · next rs v3 hrest =>
          split at hpre
          · cases hpre
          · next rs2 v4 hrest2 =>
            cases h
            cases hpre
            obtain ⟨vd, vout, r2, hrec, hget, hvd⟩ := ih hrest hd hty hls hrest2
            exact ⟨vd, vout, r2, hrec, by simpa using hget, hvd⟩

/-!
## Claim theorems C1, C2, C9
-/

/-- **C1**: for every dependency graph (any cache contents, cycles through
views included), the top-level `get_dependencies` call with the computable
fuel bound `|distinct cache keys| + 1` returns a result: the recursion always
terminates. -/
theorem c1_resolver_terminates (env : Env) (p : String) :
    (get_dependencies env ((scriptNames env).dedup.length + 1) p none).isSome = true := by
  have hb : measR env (p :: []) ≤ (scriptNames env).dedup.length :=
    List.length_filter_le _ _
  obtain ⟨q, hq⟩ :=
    getDeps_tot env ((scriptNames env).dedup.length + 1) p [] (by omega)
  simp only [get_dependencies, Option.getD, hq, Option.isSome_some]

/-- **C2**: a call whose routine name is already in the visited set returns
the empty list immediately (leaving the visited set unchanged); consequently
a formal VIEW dependency whose name was already visited gets
`view_dependencies = []` for its nested resolution. -/
theorem c2_visited_short_circuit :
    (∀ (env : Env) (fuel : Nat) (n : String) (v : List String), n ∈ v →
      getDeps env fuel n v = some ([], v)) ∧
    (∀ (env : Env) (fuel : Nat) (dep : Dep) (rest : List Dep)
      (v : List String) (out : List DRec × List String) (o : ObjScript),
      dep.type = some "VIEW" → lookupScript env.scripts dep.name = some o →
      dep.name ∈ v →
      processFormal env (getDeps env fuel) (dep :: rest) v = some out →
      ∃ r rs, out.1 = r :: rs ∧ r.view_dependencies = some []) := by
  constructor
  · exact fun env fuel n v h => getDeps_mem_visited h
  · intro env fuel dep rest v out o hty hls hmem hpf
    simp only [processFormal] at hpf
    rw [stepFormal_view hty hls (getDeps_mem_visited hmem)] at hpf
    dsimp only at hpf
    split at hpf
    · cases hpf
    · next rs v3 hrest =>
      cases hpf
      exact ⟨_, rs, rfl, rfl⟩

/-- Concrete environment for the C2 witness. -/
def envC2 : Env := ⟨[], [⟨"d.V", some "VIEW", some "S"⟩], none⟩

/-- Witness for C2: a concrete repeated name short-circuits, and a concrete
already-visited VIEW dependency yields `view_dependencies = []`. -/
theorem c2_visited_short_circuit_witness :
    getDeps envC2 2 "x" ["x"] = some ([], ["x"]) ∧
    (∃ r rs,
      (([DRec.mk "V" (some "d") (some "VIEW") false [] (some "S") (some [])],
        ["d.V"]) : List DRec × List String).1 = r :: rs ∧
      r.view_dependencies = some []) :=
  ⟨c2_visited_short_circuit.1 envC2 2 "x" ["x"] (by decide),
   c2_visited_short_circuit.2 envC2 1 ⟨"d.V", some "VIEW"⟩ [] ["d.V"]
     ([DRec.mk "V" (some "d") (some "VIEW") false [] (some "S") (some [])],
       ["d.V"])
     ⟨"d.V", some "VIEW", some "S"⟩ rfl rfl (by decide) (by rfl)⟩

/-- **C9**: the visited guard is created fresh per top-level invocation: a
second top-level call with the defaulted (`None`) visited argument returns
exactly the first call's result — whereas a call that did inherit the first
call's final visited state would short-circuit to the empty list. -/
theorem c9_fresh_visited_per_call (env : Env) (fuel : Nat) (p : String)
    (res : List DRec) (v1 : List String)
    (h : get_dependencies env fuel p none = some (res, v1)) :
    (runTwoTopLevel env fuel p).2 = some (res, v1) ∧
      getDeps env fuel p v1 = some ([], v1) := by
  refine ⟨h, ?_⟩
  have h2 : getDeps env fuel p [] = some (res, v1) := h
  exact getDeps_mem_visited (getDeps_mem_self h2)

/-- Witness for C9 at a concrete environment. -/
theorem c9_fresh_visited_per_call_witness :
    get_dependencies (⟨[], [], none⟩ : Env) 1 "p" none = some ([], ["p"]) ∧
    (runTwoTopLevel (⟨[], [], none⟩ : Env) 1 "p").2 = some ([], ["p"]) ∧
      getDeps (⟨[], [], none⟩ : Env) 1 "p" ["p"] = some ([], ["p"]) :=
  ⟨rfl, c9_fresh_visited_per_call ⟨[], [], none⟩ 1 "p" [] ["p"] rfl⟩

/-!
## Claims C3, C4, C5 — corrected
-/

/-- Environment for the C3 counterexample: one formal VIEW dependency whose
create script is not in the cache. -/
def envC3 : Env := ⟨[⟨"p", [⟨"dbo.V", some "VIEW"⟩]⟩], [], none⟩

/-- **C3 counterexample**: the record built for the formal VIEW dependency
`dbo.V` carries no `view_dependencies` field at all — no recursive resolution
happened, because the view has no cached create script.  This refutes the
claim that every formal VIEW dependency is recursively resolved. -/
theorem c3_view_recursion_counterexample :
    getDeps envC3 2 "p" [] =
      some ([DRec.mk "V" (some "dbo") (some "VIEW") false [] none none], ["p"]) ∧
    (DRec.mk "V" (some "dbo") (some "VIEW") false [] none none).view_dependencies
      = none :=
  ⟨rfl, rfl⟩

/-- **C3 (amended)**: for every formal dependency of type VIEW *whose name
has a create script in the cache*, the resolver recursively resolves it —
passing the visited set as threaded up to that dependency — and attaches the
result as the record's `view_dependencies`. -/
theorem c3_view_recursion_amended (env : Env) (fuel : Nat) (p : String)
    (v : List String) (out : List DRec × List String) (i : Nat) (dep : Dep)
    (o : ObjScript) (frecs : List DRec) (v2 : List String)
    (pre : List DRec × List String)
    (h : getDeps env (Nat.succ fuel) p v = some out)
    (hnv : p ∉ v)
    (hpf : processFormal env (getDeps env fuel) (lookupProcDeps env p) (p :: v)
      = some (frecs, v2))
    (hd : (lookupProcDeps env p).get? i = some dep)
    (hty : dep.type = some "VIEW")
    (hls : lookupScript env.scripts dep.name = some o)
    (hpre : processFormal env (getDeps env fuel)
      ((lookupProcDeps env p).take i) (p :: v) = some pre) :
    ∃ vd vout r, getDeps env fuel dep.name pre.2 = some (vd, vout) ∧
      frecs.get? i = some r ∧ r.view_dependencies = some vd ∧
      out.1.get? i = some r := by
  obtain ⟨vd, vout, r, hrec, hget, hvd⟩ :=
    processFormal_view_at hpf hd hty hls hpre
  refine ⟨vd, vout, r, hrec, hget, hvd, ?_⟩
  obtain ⟨hi, -⟩ := List.get?_eq_some.mp hget
  simp only [getDeps, if_neg hnv, hpf] at h
  split at h
  · cases h; exact hget
  · split at h
    · cases h; exact hget
    · obtain ⟨tail, ht⟩ := processRefs_prefix h
      rw [ht, List.get?_append hi]
      exact hget

/-- Environment for the C3 witness: the VIEW dependency has a cached
script. -/
def envC3w : Env :=
  ⟨[⟨"p", [⟨"d.V", some "VIEW"⟩]⟩], [⟨"d.V", some "VIEW", some "Z"⟩], none⟩

/-- Witness for the amended C3 at a concrete environment. -/
theorem c3_view_recursion_amended_witness :
    ∃ vd vout r,
      getDeps envC3w 1 "d.V" (([], ["p"]) : List DRec × List String).2 =
        some (vd, vout) ∧
      [DRec.mk "V" (some "d") (some "VIEW") false [] (some "Z")
        (some [])].get? 0 = some r ∧
      r.view_dependencies = some vd ∧
      (([DRec.mk "V" (some "d") (some "VIEW") false [] (some "Z") (some [])],
        ["d.V", "p"]) : List DRec × List String).1.get? 0 = some r :=
  c3_view_recursion_amended envC3w 1 "p" []
    ([DRec.mk "V" (some "d") (some "VIEW") false [] (some "Z") (some [])],
      ["d.V", "p"])
    0 ⟨"d.V", some "VIEW"⟩ ⟨"d.V", some "VIEW", some "Z"⟩
    [DRec.mk "V" (some "d") (some "VIEW") false [] (some "Z") (some [])]
    ["d.V", "p"] ([], ["p"])
    (by rfl) (by decide) (by rfl) rfl rfl rfl (by rfl)

/-- Environment for the C4 counterexample: formal dependency `dbo.Orders`,
and the routine's script references the same table as `[dbo].[Orders]`. -/
def envC4 : Env :=
  ⟨[⟨"dbo.p", [⟨"dbo.Orders", some "TABLE"⟩]⟩],
   [⟨"dbo.p", some "PROCEDURE", some "SELECT a FROM [dbo].[Orders]"⟩], none⟩

/-- **C4 counterexample**: the heuristic match `[dbo].[Orders]` refers to the
already-collected formal dependency `dbo.Orders` (same trailing name,
bracketed spelling), yet a new record IS added — named `[Orders` with schema
`dbo]` — because `str.strip` removes delimiters only at the two ends of the
whole token, so the code-computed trailing component `[Orders` differs from
`Orders`.  This refutes the bracket-insensitivity part of the claim. -/
theorem c4_heuristic_dedup_counterexample :
    findRefs "SELECT a FROM [dbo].[Orders]" = ["[dbo].[Orders]"] ∧
    getDeps envC4 3 "dbo.p" [] =
      some ([DRec.mk "Orders" (some "dbo") (some "TABLE") false [] none none,
             DRec.mk "[Orders" (some "dbo]") (some "REFERENCED") false []
               none none],
            ["dbo.p"]) :=
  ⟨rfl, rfl⟩

/-- **C4 (amended)**: a heuristic match is skipped (adds no record) exactly
when the trailing dot-component of its end-stripped spelling equals the
`name` of an already-collected record; this covers unbracketed schema
prefixes and fully-bracketed single names, but a bracketed schema-qualified
spelling such as `[dbo].[Orders]` is not deduplicated against `dbo.Orders`. -/
theorem c4_heuristic_dedup_amended (env : Env)
    (recur : String → List String → Option (List DRec × List String))
    (tok : String) (rest : List String) (acc : List DRec) (v : List String)
    (hdup : ∃ d ∈ acc, d.name = lastComp (stripEnds tok)) :
    processRefs env recur (tok :: rest) acc v =
      processRefs env recur rest acc v := by
  have hsk : skipRef acc tok = true := by
    obtain ⟨d, hd, hn⟩ := hdup
    exact List.any_eq_true.mpr ⟨d, hd, by simp [hn]⟩
  simp only [processRefs, if_pos hsk]

/-- Witness for the amended C4: the unbracketed spelling `dbo.Orders` is
deduplicated against the collected record named `Orders`. -/
theorem c4_heuristic_dedup_amended_witness :
    (∃ d ∈ [DRec.mk "Orders" (some "dbo") (some "TABLE") false [] none none],
      d.name = lastComp (stripEnds "dbo.Orders")) ∧
    processRefs envC4 (getDeps envC4 1) ["dbo.Orders"]
        [DRec.mk "Orders" (some "dbo") (some "TABLE") false [] none none] [] =
      processRefs envC4 (getDeps envC4 1) []
        [DRec.mk "Orders" (some "dbo") (some "TABLE") false [] none none] [] :=
  ⟨⟨DRec.mk "Orders" (some "dbo") (some "TABLE") false [] none none,
      List.mem_singleton.mpr rfl, by rfl⟩,
    c4_heuristic_dedup_amended envC4 (getDeps envC4 1) "dbo.Orders" []
      [DRec.mk "Orders" (some "dbo") (some "TABLE") false [] none none] []
      ⟨DRec.mk "Orders" (some "dbo") (some "TABLE") false [] none none,
        List.mem_singleton.mpr rfl, by rfl⟩⟩

/-- Environment for the C5 counterexample: two formal dependencies with the
same trailing name in different schemas. -/
def envC5 : Env :=
  ⟨[⟨"p", [⟨"a.X", some "TABLE"⟩, ⟨"b.X", some "TABLE"⟩]⟩], [], none⟩

/-- **C5 counterexample**: formal dependencies are never de-duplicated, so
`a.X` and `b.X` both yield a record named `X` — the same name appears twice
in the returned list, refuting the at-most-once part of the claim. -/
theorem c5_merge_counterexample :
    getDeps envC5 2 "p" [] =
      some ([DRec.mk "X" (some "a") (some "TABLE") false [] none none,
             DRec.mk "X" (some "b") (some "TABLE") false [] none none],
        ["p"]) ∧
    (DRec.mk "X" (some "a") (some "TABLE") false [] none none).name =
      (DRec.mk "X" (some "b") (some "TABLE") false [] none none).name :=
  ⟨rfl, rfl⟩

/-!
## Trailing-component arithmetic for the heuristic de-duplication
-/

theorem takeWhile_all {α} {p : α → Bool} :
    ∀ {l : List α}, (∀ x ∈ l, p x = true) → l.takeWhile p = l := by
  intro l
  induction l with
  | nil => intro _; rfl
  | cons a t ih =>
    intro h
    rw [List.takeWhile_cons, if_pos (h a (List.mem_cons_self _ _))]
    rw [ih fun x hx => h x (List.mem_cons_of_mem _ hx)]

theorem takeWhile_append_all {α} {p : α → Bool} :
    ∀ {xs : List α}, (∀ x ∈ xs, p x = true) → ∀ (ys : List α),
      (xs ++ ys).takeWhile p = xs ++ ys.takeWhile p := by
  intro xs
  induction xs with
  | nil => intro _ ys; rfl
  | cons a t ih =>
    intro h ys
    rw [List.cons_append, List.takeWhile_cons,
      if_pos (h a (List.mem_cons_self _ _)),
      ih (fun x hx => h x (List.mem_cons_of_mem _ hx)) ys, List.cons_append]

theorem takeWhile_append_stop {α} {p : α → Bool} :
    ∀ {xs : List α}, (∃ x ∈ xs, p x = false) → ∀ (ys : List α),
      (xs ++ ys).takeWhile p = xs.takeWhile p := by
  intro xs
  induction xs with
  | nil => intro h; exact absurd h (by simp)
  | cons a t ih =>
    intro h ys
    by_cases hpa : p a = true
    · rw [List.cons_append, List.takeWhile_cons, if_pos hpa,
        List.takeWhile_cons, if_pos hpa]
      obtain ⟨x, hx, hpx⟩ := h
      rcases List.mem_cons.mp hx with rfl | hxt
      · rw [hpa] at hpx; cases hpx
      · rw [ih ⟨x, hxt, hpx⟩ ys]
    · rw [List.cons_append, List.takeWhile_cons, if_neg hpa,
        List.takeWhile_cons, if_neg hpa]

theorem dropWhile_dot :
    ∀ {s : List Char}, '.' ∈ s →
      ∃ tl, s.dropWhile (fun c => decide (c ≠ '.')) = '.' :: tl := by
  intro s
  induction s with
  | nil => intro h; cases h
  | cons c cs ih =>
    intro h
    by_cases hc : c = '.'
    · subst hc
      exact ⟨cs, by rw [List.dropWhile_cons, if_neg (by simp)]⟩
    · obtain ⟨tl, htl⟩ := ih (by
        rcases List.mem_cons.mp h with h' | h'
        · exact absurd h'.symm hc
        · exact h')
      exact ⟨tl, by rw [List.dropWhile_cons, if_pos (by simp [hc]), htl]⟩

theorem lastCompL_append_dot (a tl : List Char) :
    lastCompL (a ++ '.' :: tl) = lastCompL tl := by
  unfold lastCompL
  have hrev : (a ++ '.' :: tl).reverse = tl.reverse ++ '.' :: a.reverse := by
    rw [List.reverse_append, List.reverse_cons, List.append_assoc]
    rfl
  rw [hrev]
  by_cases hdot : '.' ∈ tl
  · rw [takeWhile_append_stop ⟨'.', List.mem_reverse.mpr hdot, by simp⟩]
  · have hall : ∀ x ∈ tl.reverse, (fun c => decide (c ≠ '.')) x = true := by
      intro x hx
      simp only [decide_eq_true_eq]
      intro hx'
      exact hdot (by rw [← hx']; exact List.mem_reverse.mp hx)
    rw [takeWhile_append_all hall, List.takeWhile_cons, if_neg (by simp),
      List.append_nil, takeWhile_all hall]

theorem lastCompL_splitSchemaL (s : List Char) :
    lastCompL (splitSchemaL s).2 = lastCompL s := by
  unfold splitSchemaL
  by_cases hc : '.' ∈ s
  · rw [if_pos hc]
    obtain ⟨tl, htl⟩ := dropWhile_dot hc
    have hs : s = s.takeWhile (fun c => decide (c ≠ '.')) ++ '.' :: tl := by
      conv_lhs => rw [← List.takeWhile_append_dropWhile
        (fun c => decide (c ≠ '.')) s]
      rw [htl]
    dsimp only
    rw [htl, List.drop_one, List.tail_cons]
    conv_rhs => rw [hs]
    rw [lastCompL_append_dot]
  · rw [if_neg hc]

theorem mem_lastCompL_ne_dot {s : List Char} : ∀ x ∈ lastCompL s, x ≠ '.' := by
  intro x hx
  unfold lastCompL at hx
  have := List.mem_takeWhile_imp (List.mem_reverse.mp hx)
  simpa using this

theorem lastCompL_nodot {s : List Char} (h : ∀ x ∈ s, x ≠ '.') :
    lastCompL s = s := by
  unfold lastCompL
  rw [takeWhile_all (fun x hx => by
    simp only [decide_eq_true_eq]
    exact h x (List.mem_reverse.mp hx)), List.reverse_reverse]

theorem splitSchema_snd (s : String) :
    (splitSchema s).2 = ⟨(splitSchemaL s.toList).2⟩ := by
  unfold splitSchema
  rcases h : splitSchemaL s.toList with ⟨a | a, b⟩ <;> simp [h]

theorem lastComp_splitSchema (s : String) :
    lastComp (splitSchema s).2 = lastComp s := by
  rw [splitSchema_snd]
  show String.mk (lastCompL (splitSchemaL s.toList).2) =
    String.mk (lastCompL s.toList)
  rw [lastCompL_splitSchemaL]

theorem lastComp_idem (s : String) : lastComp (lastComp s) = lastComp s := by
  show String.mk (lastCompL (lastCompL s.toList)) = _
  rw [lastCompL_nodot (fun x hx => mem_lastCompL_ne_dot x hx)]
  rfl

theorem stepRef_name {env : Env} {recur} {tok : String} {v : List String}
    {out : DRec × List String} (h : stepRef env recur tok v = some out) :
    out.1.name = (splitSchema (stripEnds tok)).2 := by
  simp only [stepRef] at h
  split at h
  · cases h; rfl
  · split at h
    · split at h
      · cases h
      · cases h; rfl
    · cases h; rfl

/-- Once a record whose full `name` is `N` has been collected, the heuristic
loop never adds another record whose name has trailing component `N`: any
such candidate token is skipped by the de-duplication test. -/
theorem processRefs_trailing_stable {env : Env} {recur} {N : String}
    {S : List DRec} :
    ∀ {toks : List String} {acc : List DRec} {v : List String}
      {out : List DRec × List String},
      processRefs env recur toks acc v = some out →
      (∃ d ∈ acc, d.name = N) →
      (∀ r ∈ acc, lastComp r.name = N → r ∈ S) →
      ∀ r ∈ out.1, lastComp r.name = N → r ∈ S := by
  intro toks
  induction toks with
  | nil =>
    intro acc v out h hex hinv
    cases h
    exact hinv
  | cons tok rest ih =>
    intro acc v out h hex hinv
    simp only [processRefs] at h
    split at h
    · exact ih h hex hinv
    · next hsk =>
      split at h
      · cases h
      · next r0 v2 hstep =>
        refine ih h ⟨hex.choose, List.mem_append_left _ hex.choose_spec.1,
          hex.choose_spec.2⟩ ?_
        intro r hr hlast
        rcases List.mem_append.mp hr with hr | hr
        · exact hinv r hr hlast
        · rcases List.mem_singleton.mp hr with rfl
          exfalso
          apply hsk
          have hname : r.name = (splitSchema (stripEnds tok)).2 :=
            stepRef_name hstep
          have hlc : lastComp (stripEnds tok) = N := by
            rw [← lastComp_splitSchema, ← hname, hlast]
          obtain ⟨d, hd, hdn⟩ := hex
          exact List.any_eq_true.mpr ⟨d, hd, by simp [hdn, hlc]⟩

theorem processFormal_name_mem {env : Env} {recur} :
    ∀ {deps : List Dep} {v : List String} {out : List DRec × List String},
      processFormal env recur deps v = some out →
      ∀ r ∈ out.1, ∃ dep ∈ deps, r.name = (splitSchema dep.name).2 := by
  intro deps
  induction deps with
  | nil =>
    intro v out h
    cases h
    intro r hr
    cases hr
  | cons dep rest ih =>
    intro v out h
    simp only [processFormal] at h
    split at h
    · cases h
    · next r0 v2 hstep =>
      split at h
      · cases h
      · next rs v3 hrest =>
        cases h
        intro r hr
        rcases List.mem_cons.mp hr with rfl | hr
        · exact ⟨dep, List.mem_cons_self _ _, stepFormal_name hstep⟩
        · obtain ⟨d, hd, hn⟩ := ih hrest r hr
          exact ⟨d, List.mem_cons_of_mem _ hd, hn⟩

/-- **C10**: the heuristic de-duplication compares only trailing name
components: once the formal phase has produced a record whose name is `N`,
every record of the final result whose name has trailing component `N` is one
of the formal records — a heuristic reference such as `other.N` (same
trailing name, any schema) is suppressed and never adds a record. -/
theorem c10_trailing_dedup (env : Env) (fuel : Nat) (p : String)
    (v : List String) (out : List DRec × List String)
    (frecs : List DRec) (v2 : List String) (N : String)
    (h : getDeps env (Nat.succ fuel) p v = some out)
    (hnv : p ∉ v)
    (hpf : processFormal env (getDeps env fuel) (lookupProcDeps env p) (p :: v)
      = some (frecs, v2))
    (hN : ∃ d ∈ frecs, d.name = N) :
    ∀ r ∈ out.1, lastComp r.name = N → r ∈ frecs := by
  simp only [getDeps, if_neg hnv, hpf] at h
  split at h
  · cases h; exact fun r hr _ => hr
  · split at h
    · cases h; exact fun r hr _ => hr
    · exact processRefs_trailing_stable h hN (fun r hr _ => hr)

/-- Environment for the C10 witness: formal `dbo.N`, heuristic `other.N`. -/
def envC10 : Env :=
  ⟨[⟨"dbo.p", [⟨"dbo.N", some "TABLE"⟩]⟩],
   [⟨"dbo.p", some "PROCEDURE", some "SELECT a FROM other.N"⟩], none⟩

/-- Witness for C10: with formal `dbo.N` collected, the heuristic reference
`other.N` is suppressed — the result consists of the formal record alone, and
instantiating the suppression theorem at that record places it among the
formal records. -/
theorem c10_trailing_dedup_witness :
    findRefs "SELECT a FROM other.N" = ["other.N"] ∧
    getDeps envC10 2 "dbo.p" [] =
      some ([DRec.mk "N" (some "dbo") (some "TABLE") false [] none none],
        ["dbo.p"]) ∧
    DRec.mk "N" (some "dbo") (some "TABLE") false [] none none ∈
      [DRec.mk "N" (some "dbo") (some "TABLE") false [] none none] :=
  ⟨rfl, rfl,
   c10_trailing_dedup envC10 1 "dbo.p" []
     ([DRec.mk "N" (some "dbo") (some "TABLE") false [] none none], ["dbo.p"])
     [DRec.mk "N" (some "dbo") (some "TABLE") false [] none none]
     ["dbo.p"] "N" (by rfl) (by decide) (by rfl)
     ⟨DRec.mk "N" (some "dbo") (some "TABLE") false [] none none,
       List.mem_singleton.mpr rfl, rfl⟩
     (DRec.mk "N" (some "dbo") (some "TABLE") false [] none none)
     (List.mem_singleton.mpr rfl) rfl⟩

/-!
## Claim C5 (amended): the merge structure of the returned list
-/

/-- The heuristic loop builds its output by appending, to the incoming list,
one record per non-skipped token, in token order: the appended tail
corresponds, element by element and in order, to a subsequence of the token
list, each record built from its own token. -/
theorem processRefs_tail_order {env : Env} {recur} :
    ∀ {toks : List String} {acc : List DRec} {v : List String}
      {out : List DRec × List String},
      processRefs env recur toks acc v = some out →
      ∃ used tail, out.1 = acc ++ tail ∧ List.Sublist used toks ∧
        List.Forall₂
          (fun tok r => DRec.name r = (splitSchema (stripEnds tok)).2)
          used tail := by
  intro toks
  induction toks with
  | nil =>
    intro acc v out h
    cases h
    exact ⟨[], [], (List.append_nil _).symm, List.nil_sublist _,
      List.Forall₂.nil⟩
  | cons tok rest ih =>
    intro acc v out h
    simp only [processRefs] at h
    split at h
    · obtain ⟨used, tail, hout, hsub, hfa⟩ := ih h
      exact ⟨used, tail, hout, List.Sublist.cons tok hsub, hfa⟩
    · split at h
      · cases h
      · next r0 v2 hstep =>
        obtain ⟨used, tail, hout, hsub, hfa⟩ := ih h
        refine ⟨tok :: used, r0 :: tail, ?_, List.Sublist.cons₂ tok hsub,
          List.Forall₂.cons (stepRef_name hstep) hfa⟩
        rw [hout, List.append_assoc]
        rfl

/-- **C5 (amended)**: the returned list is the order-preserving merge of the
two phases — all formal-catalog records first, in catalog order (the i-th
record comes from the i-th catalog dependency), followed by the heuristic
records appended after them in text-match order: the appended tail
corresponds, in order, to a subsequence of the scanned tokens (those not
skipped by de-duplication), each record built from its token; no re-ordering
is performed.  Names are NOT guaranteed unique: formal records are never
de-duplicated against each other. -/
theorem c5_merge_amended (env : Env) (fuel : Nat) (p : String)
    (v : List String) (out : List DRec × List String)
    (h : getDeps env (Nat.succ fuel) p v = some out) (hnv : p ∉ v) :
    ∃ frecs v2 tail toks,
      processFormal env (getDeps env fuel) (lookupProcDeps env p) (p :: v) =
        some (frecs, v2) ∧
      out.1 = frecs ++ tail ∧
      frecs.length = (lookupProcDeps env p).length ∧
      (∀ i dep, (lookupProcDeps env p).get? i = some dep →
        ∃ r, frecs.get? i = some r ∧ r.name = (splitSchema dep.name).2) ∧
      List.Sublist toks
        (match (lookupScript env.scripts p).bind ObjScript.definition with
          | none => []
          | some script => if script.isEmpty then [] else findRefs script) ∧
      List.Forall₂ (fun tok r => DRec.name r = (splitSchema (stripEnds tok)).2)
        toks tail := by
  simp only [getDeps, if_neg hnv] at h
  split at h
  · cases h
  · next recs v2 hpf =>
    obtain ⟨hlen, hnames⟩ := processFormal_names hpf
    split at h
    · next hscr =>
      cases h
      refine ⟨recs, v2, [], [], hpf, (List.append_nil _).symm, hlen, hnames,
        ?_, List.Forall₂.nil⟩
      exact List.nil_sublist _
    · next script hscr =>
      split at h
      · next hemp =>
        cases h
        refine ⟨recs, v2, [], [], hpf, (List.append_nil _).symm, hlen, hnames,
          ?_, List.Forall₂.nil⟩
        exact List.nil_sublist _
      · next hemp =>
        obtain ⟨used, tail, hout, hsub, hfa⟩ := processRefs_tail_order h
        refine ⟨recs, v2, tail, used, hpf, hout, hlen, hnames, ?_, hfa⟩
        rw [if_neg hemp]
        exact hsub

/-- Environment for the C5 witness: two duplicate-named formal dependencies
and one heuristic text reference, so both phases contribute records. -/
def envC5w : Env :=
  ⟨[⟨"dbo.p", [⟨"a.X", some "TABLE"⟩, ⟨"b.X", some "TABLE"⟩]⟩],
   [⟨"dbo.p", some "PROCEDURE", some "SELECT a FROM dbo.T"⟩], none⟩

/-- Witness for the amended C5 at a concrete environment where the result is
the two formal records (in catalog order) followed by one heuristic record
built from the scanned token `dbo.T`. -/
theorem c5_merge_amended_witness :
    getDeps envC5w 2 "dbo.p" [] =
      some ([DRec.mk "X" (some "a") (some "TABLE") false [] none none,
             DRec.mk "X" (some "b") (some "TABLE") false [] none none,
             DRec.mk "T" (some "dbo") (some "REFERENCED") false [] none none],
        ["dbo.p"]) ∧
    findRefs "SELECT a FROM dbo.T" = ["dbo.T"] ∧
    ∃ frecs v2 tail toks,
      processFormal envC5w (getDeps envC5w 1) (lookupProcDeps envC5w "dbo.p")
        ("dbo.p" :: []) = some (frecs, v2) ∧
      (([DRec.mk "X" (some "a") (some "TABLE") false [] none none,
         DRec.mk "X" (some "b") (some "TABLE") false [] none none,
         DRec.mk "T" (some "dbo") (some "REFERENCED") false [] none none],
        (["dbo.p"] : List String)) : List DRec × List String).1 =
          frecs ++ tail ∧
      frecs.length = (lookupProcDeps envC5w "dbo.p").length ∧
      (∀ i dep, (lookupProcDeps envC5w "dbo.p").get? i = some dep →
        ∃ r, frecs.get? i = some r ∧ r.name = (splitSchema dep.name).2) ∧
      List.Sublist toks
        (match (lookupScript envC5w.scripts "dbo.p").bind
            ObjScript.definition with
          | none => []
          | some script => if script.isEmpty then [] else findRefs script) ∧
      List.Forall₂ (fun tok r => DRec.name r = (splitSchema (stripEnds tok)).2)
        toks tail :=
  ⟨rfl, rfl,
   c5_merge_amended envC5w 1 "dbo.p" []
     ([DRec.mk "X" (some "a") (some "TABLE") false [] none none,
       DRec.mk "X" (some "b") (some "TABLE") false [] none none,
       DRec.mk "T" (some "dbo") (some "REFERENCED") false [] none none],
       ["dbo.p"])
     (by rfl) (by decide)⟩

/-!
## Claim C7: heuristic discovery of text-only references
-/

theorem stepRef_type {env : Env} {recur} {tok : String} {v : List String}
    {out : DRec × List String} (h : stepRef env recur tok v = some out) :
    out.1.type =
      (match lookupScript env.scripts (joinName (splitSchema (stripEnds tok))) with
        | none => some "REFERENCED"
        | some o => o.type) := by
  simp only [stepRef] at h
  split at h
  · next hls =>
    cases h
    simp only [hls]
    rfl
  · next o hls =>
    split at h
    · split at h
      · cases h
      · cases h
        simp only [hls]
        rfl
    · cases h
      simp only [hls]
      rfl

/-- If the token list contains a distinguished token `tk`, no earlier token
has the same cleaned trailing component, and no collected record's name
equals that component, then the heuristic loop adds a record for `tk` with
the REFERENCED-or-cache type rule. -/
theorem processRefs_finds_token {env : Env} {recur} {tk : String} :
    ∀ {l1 : List String} {l2 : List String} {acc : List DRec}
      {v : List String} {out : List DRec × List String},
      processRefs env recur (l1 ++ tk :: l2) acc v = some out →
      (∀ t ∈ l1, lastComp (stripEnds t) ≠ lastComp (stripEnds tk)) →
      (∀ d ∈ acc, d.name ≠ lastComp (stripEnds tk)) →
      ∃ r ∈ out.1, r.name = (splitSchema (stripEnds tk)).2 ∧
        r.type = (match lookupScript env.scripts
            (joinName (splitSchema (stripEnds tk))) with
          | none => some "REFERENCED"
          | some o => o.type) := by
  intro l1
  induction l1 with
  | nil =>
    intro l2 acc v out h hb hacc
    rw [List.nil_append] at h
    simp only [processRefs] at h
    split at h
    · next hsk =>
      exfalso
      obtain ⟨d, hd, hdn⟩ := List.any_eq_true.mp hsk
      exact hacc d hd (by simpa using hdn)
    · split at h
      · cases h
      · next r0 v2 hstep =>
        obtain ⟨tail, ht⟩ := processRefs_prefix h
        refine ⟨r0, ?_, stepRef_name hstep, stepRef_type hstep⟩
        rw [ht]
        exact List.mem_append_left _
          (List.mem_append_right _ (List.mem_singleton.mpr rfl))
  | cons t ts ih =>
    intro l2 acc v out h hb hacc
    rw [List.cons_append] at h
    simp only [processRefs] at h
    split at h
    · exact ih h (fun u hu => hb u (List.mem_cons_of_mem _ hu)) hacc
    · split at h
      · cases h
      · next r0 v2 hstep =>
        refine ih h (fun u hu => hb u (List.mem_cons_of_mem _ hu)) ?_
        intro d hd
        rcases List.mem_append.mp hd with hd | hd
        · exact hacc d hd
        · rcases List.mem_singleton.mp hd with rfl
          intro hcon
          have h1 : lastComp d.name = lastComp (stripEnds t) := by
            rw [stepRef_name hstep, lastComp_splitSchema]
          have h2 : lastComp d.name = lastComp (stripEnds tk) := by
            rw [hcon, lastComp_idem]
          exact hb t (List.mem_cons_self _ _) (h1.symm.trans h2)

/-- **C7**: when the routine's own create script yields the heuristic match
`#TempStaging` (e.g. from `INTO #TempStaging`), no earlier match has trailing
component `#TempStaging`, and `#TempStaging` is not among the formal
dependencies, the result contains a record named `#TempStaging` whose type is
`REFERENCED` — or the cached object's type when a matching create script
exists in the cache. -/
theorem c7_temp_staging (env : Env) (fuel : Nat) (p : String)
    (v : List String) (out : List DRec × List String) (script : String)
    (l1 l2 : List String) (frecs : List DRec) (v2 : List String)
    (h : getDeps env (Nat.succ fuel) p v = some out)
    (hnv : p ∉ v)
    (hpf : processFormal env (getDeps env fuel) (lookupProcDeps env p) (p :: v)
      = some (frecs, v2))
    (hscript : (lookupScript env.scripts p).bind ObjScript.definition
      = some script)
    (hne : script.isEmpty = false)
    (hrefs : findRefs script = l1 ++ "#TempStaging" :: l2)
    (hbefore : ∀ t ∈ l1, lastComp (stripEnds t) ≠ "#TempStaging")
    (hformal : ∀ dep ∈ lookupProcDeps env p,
      (splitSchema dep.name).2 ≠ "#TempStaging") :
    ∃ r ∈ out.1, r.name = "#TempStaging" ∧
      r.type = (match lookupScript env.scripts "#TempStaging" with
        | none => some "REFERENCED"
        | some o => o.type) := by
  simp only [getDeps, if_neg hnv, hpf, hscript] at h
  rw [if_neg (by simp [hne])] at h
  rw [hrefs] at h
  have hacc : ∀ d ∈ frecs, d.name ≠ lastComp (stripEnds "#TempStaging") := by
    intro d hd
    obtain ⟨dep, hdep, hn⟩ := processFormal_name_mem hpf d hd
    rw [hn]
    exact hformal dep hdep
  have hb : ∀ t ∈ l1,
      lastComp (stripEnds t) ≠ lastComp (stripEnds "#TempStaging") :=
    fun t ht => hbefore t ht
  obtain ⟨r, hr, hname, htype⟩ := processRefs_finds_token h hb hacc
  exact ⟨r, hr, hname, htype⟩

/-- Environment for the C7 witness. -/
def envC7 : Env :=
  ⟨[], [⟨"dbo.p", some "PROCEDURE",
    some "INSERT INTO #TempStaging SELECT 1"⟩], none⟩

/-- Witness for C7 at a concrete environment: the temp-table reference is
added as a REFERENCED record. -/
theorem c7_temp_staging_witness :
    ∃ r ∈ (([DRec.mk "#TempStaging" none (some "REFERENCED") false [] none
        none], ["dbo.p"]) : List DRec × List String).1,
      r.name = "#TempStaging" ∧
      r.type = (match lookupScript envC7.scripts "#TempStaging" with
        | none => some "REFERENCED"
        | some o => o.type) :=
  c7_temp_staging envC7 1 "dbo.p" []
    ([DRec.mk "#TempStaging" none (some "REFERENCED") false [] none none],
      ["dbo.p"])
    "INSERT INTO #TempStaging SELECT 1" [] [] [] ["dbo.p"]
    (by rfl) (by decide) (by rfl) (by rfl) (by rfl) (by rfl)
    (fun t ht => absurd ht (List.not_mem_nil t))
    (fun dep hdep => absurd hdep (List.not_mem_nil dep))

/-!
## Claim C6: the enforced-dependency detector
-/

/-- Case-insensitive substring containment, used to phrase the negative half
of the enforced-dependency property ("no foreign-key-related text"). -/
def containsCI (kw : List Char) (s : List Char) : Bool :=
  searchWith (fun l => (matchKeyword kw l).isSome) s

theorem matchKeyword_append :
    ∀ (kw r : List Char), matchKeyword kw (kw ++ r) = some r := by
  intro kw
  induction kw with
  | nil => intro r; rfl
  | cons k ks ih => intro r; simp [matchKeyword, ih r]

theorem matchKeyword_suffix :
    ∀ {kw s r : List Char}, matchKeyword kw s = some r → r <:+ s := by
  intro kw
  induction kw with
  | nil =>
    intro s r h
    cases h
    exact List.suffix_refl _
  | cons k ks ih =>
    intro s r h
    cases s with
    | nil => cases h
    | cons c cs =>
      simp only [matchKeyword] at h
      split at h
      · exact (ih h).trans (List.suffix_cons c cs)
      · cases h

theorem searchWith_of_suffix {m : List Char → Bool} :
    ∀ {s l : List Char}, l <:+ s → m l = true → searchWith m s = true := by
  intro s
  induction s with
  | nil =>
    intro l hl hm
    rw [List.suffix_nil.mp hl] at hm
    simpa [searchWith] using hm
  | cons c cs ih =>
    intro l hl hm
    rcases List.suffix_cons_iff.mp hl with rfl | hl'
    · simp [searchWith, hm]
    · simp [searchWith, ih hl' hm]

theorem searchWith_exists {m : List Char → Bool} :
    ∀ {s : List Char}, searchWith m s = true → ∃ l, l <:+ s ∧ m l = true := by
  intro s
  induction s with
  | nil => intro h; exact ⟨[], List.suffix_refl _, h⟩
  | cons c cs ih =>
    intro h
    simp only [searchWith, Bool.or_eq_true] at h
    rcases h with h | h
    · exact ⟨c :: cs, List.suffix_refl _, h⟩
    · obtain ⟨l, hl, hm⟩ := ih h
      exact ⟨l, hl.trans (List.suffix_cons c cs), hm⟩

theorem litThen_true {kw : List Char} {cont : List Char → Bool}
    {s : List Char} (h : litThen kw cont s = true) :
    ∃ r, matchKeyword kw s = some r ∧ cont r = true ∧ r <:+ s := by
  unfold litThen at h
  split at h
  · next r heq => exact ⟨r, heq, h, matchKeyword_suffix heq⟩
  · cases h

theorem wsThen_true {cont : List Char → Bool} :
    ∀ {s : List Char}, wsThen cont s = true →
      ∃ l, l <:+ s ∧ cont l = true := by
  intro s
  induction s with
  | nil => intro h; cases h
  | cons c cs ih =>
    intro h
    simp only [wsThen, Bool.and_eq_true, Bool.or_eq_true] at h
    rcases h.2 with h2 | h2
    · exact ⟨cs, List.suffix_cons c cs, h2⟩
    · obtain ⟨l, hl, hc⟩ := ih h2
      exact ⟨l, hl.trans (List.suffix_cons c cs), hc⟩

theorem wordThen_true {cont : List Char → Bool} :
    ∀ {s : List Char}, wordThen cont s = true →
      ∃ l, l <:+ s ∧ cont l = true := by
  intro s
  induction s with
  | nil => intro h; cases h
  | cons c cs ih =>
    intro h
    simp only [wordThen, Bool.and_eq_true, Bool.or_eq_true] at h
    rcases h.2 with h2 | h2
    · exact ⟨cs, List.suffix_cons c cs, h2⟩
    · obtain ⟨l, hl, hc⟩ := ih h2
      exact ⟨l, hl.trans (List.suffix_cons c cs), hc⟩

theorem seekNoNL_true {cont : List Char → Bool} :
    ∀ {s : List Char}, seekNoNL cont s = true →
      ∃ l, l <:+ s ∧ cont l = true := by
  intro s
  induction s with
  | nil => intro h; exact ⟨[], List.suffix_refl _, h⟩
  | cons c cs ih =>
    intro h
    simp only [seekNoNL, Bool.or_eq_true] at h
    rcases h with h | h
    · exact ⟨c :: cs, List.suffix_refl _, h⟩
    · split at h
      · cases h
      · obtain ⟨l, hl, hc⟩ := ih h
        exact ⟨l, hl.trans (List.suffix_cons c cs), hc⟩

theorem patForeignKey_has {l : List Char} (h : patForeignKey l = true) :
    ∃ l2, l2 <:+ l ∧ (matchKeyword "FOREIGN".toList l2).isSome = true := by
  unfold patForeignKey at h
  obtain ⟨r, hm, -, -⟩ := litThen_true h
  exact ⟨l, List.suffix_refl _, by rw [hm]; rfl⟩

theorem patReferencesTail_has {l : List Char}
    (h : patReferencesTail l = true) :
    ∃ l2, l2 <:+ l ∧ (matchKeyword "REFERENCES".toList l2).isSome = true := by
  unfold patReferencesTail at h
  obtain ⟨r, hm, -, -⟩ := litThen_true h
  exact ⟨l, List.suffix_refl _, by rw [hm]; rfl⟩

theorem patConstraintFK_has {l : List Char} (h : patConstraintFK l = true) :
    ∃ l2, l2 <:+ l ∧ (matchKeyword "FOREIGN".toList l2).isSome = true := by
  unfold patConstraintFK at h
  obtain ⟨r1, -, hc1, hs1⟩ := litThen_true h
  obtain ⟨l2, hl2, hc2⟩ := wsThen_true hc1
  obtain ⟨l3, hl3, hc3⟩ := wordThen_true hc2
  obtain ⟨l4, hl4, hc4⟩ := wsThen_true hc3
  obtain ⟨r5, hm5, -, -⟩ := litThen_true hc4
  exact ⟨l4, ((hl4.trans hl3).trans hl2).trans hs1, by rw [hm5]; rfl⟩

theorem patAlterAddFK_has {l : List Char} (h : patAlterAddFK l = true) :
    ∃ l2, l2 <:+ l ∧ (matchKeyword "FOREIGN".toList l2).isSome = true := by
  unfold patAlterAddFK at h
  obtain ⟨r1, -, hc1, hs1⟩ := litThen_true h
  obtain ⟨l2, hl2, hc2⟩ := wsThen_true hc1
  obtain ⟨r3, -, hc3, hs3⟩ := litThen_true hc2
  obtain ⟨l4, hl4, hc4⟩ := seekNoNL_true hc3
  obtain ⟨r5, -, hc5, hs5⟩ := litThen_true hc4
  obtain ⟨l6, hl6, hc6⟩ := wsThen_true hc5
  obtain ⟨l7, hl7, hc7⟩ := seekNoNL_true hc6
  obtain ⟨r8, hm8, -, -⟩ := litThen_true hc7
  refine ⟨l7, ?_, by rw [hm8]; rfl⟩
  exact ((((((hl7.trans hl6).trans hs5).trans hl4).trans hs3).trans
    hl2).trans hs1)

theorem patAlterAddConstraintFK_has {l : List Char}
    (h : patAlterAddConstraintFK l = true) :
    ∃ l2, l2 <:+ l ∧ (matchKeyword "FOREIGN".toList l2).isSome = true := by
  unfold patAlterAddConstraintFK at h
  obtain ⟨r1, -, hc1, hs1⟩ := litThen_true h
  obtain ⟨l2, hl2, hc2⟩ := wsThen_true hc1
  obtain ⟨r3, -, hc3, hs3⟩ := litThen_true hc2
  obtain ⟨l4, hl4, hc4⟩ := seekNoNL_true hc3
  obtain ⟨r5, -, hc5, hs5⟩ := litThen_true hc4
  obtain ⟨l6, hl6, hc6⟩ := wsThen_true hc5
  obtain ⟨r7, -, hc7, hs7⟩ := litThen_true hc6
  obtain ⟨l8, hl8, hc8⟩ := seekNoNL_true hc7
  obtain ⟨r9, hm9, -, -⟩ := litThen_true hc8
  refine ⟨l8, ?_, by rw [hm9]; rfl⟩
  exact (((((((hl8.trans hs7).trans hl6).trans hs5).trans hl4).trans
    hs3).trans hl2).trans hs1)

theorem patAlterAddReferences_has {l : List Char}
    (h : patAlterAddReferences l = true) :
    ∃ l2, l2 <:+ l ∧ (matchKeyword "REFERENCES".toList l2).isSome = true := by
  unfold patAlterAddReferences at h
  obtain ⟨r1, -, hc1, hs1⟩ := litThen_true h
  obtain ⟨l2, hl2, hc2⟩ := wsThen_true hc1
  obtain ⟨r3, -, hc3, hs3⟩ := litThen_true hc2
  obtain ⟨l4, hl4, hc4⟩ := seekNoNL_true hc3
  obtain ⟨r5, -, hc5, hs5⟩ := litThen_true hc4
  obtain ⟨l6, hl6, hc6⟩ := wsThen_true hc5
  obtain ⟨l7, hl7, hc7⟩ := seekNoNL_true hc6
  obtain ⟨r8, hm8, -, -⟩ := litThen_true hc7
  refine ⟨l7, ?_, by rw [hm8]; rfl⟩
  exact ((((((hl7.trans hl6).trans hs5).trans hl4).trans hs3).trans
    hl2).trans hs1)

theorem patWithCheckAddFK_has {l : List Char}
    (h : patWithCheckAddFK l = true) :
    ∃ l2, l2 <:+ l ∧ (matchKeyword "FOREIGN".toList l2).isSome = true := by
  unfold patWithCheckAddFK at h
  obtain ⟨r1, -, hc1, hs1⟩ := litThen_true h
  obtain ⟨l2, hl2, hc2⟩ := wsThen_true hc1
  obtain ⟨r3, -, hc3, hs3⟩ := litThen_true hc2
  obtain ⟨l4, hl4, hc4⟩ := wsThen_true hc3
  obtain ⟨r5, -, hc5, hs5⟩ := litThen_true hc4
  obtain ⟨l6, hl6, hc6⟩ := wsThen_true hc5
  obtain ⟨r7, -, hc7, hs7⟩ := litThen_true hc6
  obtain ⟨l8, hl8, hc8⟩ := seekNoNL_true hc7
  obtain ⟨r9, hm9, -, -⟩ := litThen_true hc8
  refine ⟨l8, ?_, by rw [hm9]; rfl⟩
  exact (((((((hl8.trans hs7).trans hl6).trans hs5).trans hl4).trans
    hs3).trans hl2).trans hs1)

theorem checkEnforcedL_false {s : List Char}
    (hF : containsCI "FOREIGN".toList s = false)
    (hR : containsCI "REFERENCES".toList s = false) :
    checkEnforcedL s = false := by
  have noF : ∀ {l : List Char}, l <:+ s →
      (matchKeyword "FOREIGN".toList l).isSome = true → False := by
    intro l hl hm
    have h1 : containsCI "FOREIGN".toList s = true :=
      searchWith_of_suffix hl hm
    rw [h1] at hF
    cases hF
  have noR : ∀ {l : List Char}, l <:+ s →
      (matchKeyword "REFERENCES".toList l).isSome = true → False := by
    intro l hl hm
    have h1 : containsCI "REFERENCES".toList s = true :=
      searchWith_of_suffix hl hm
    rw [h1] at hR
    cases hR
  unfold checkEnforcedL
  by_cases hemp : s.isEmpty = true
  · rw [if_pos hemp]
  · rw [if_neg hemp]
    have s1 : searchWith patForeignKey s = false := by
      by_contra hx
      rw [Bool.not_eq_false] at hx
      obtain ⟨l, hl, hp⟩ := searchWith_exists hx
      obtain ⟨l2, hl2, hm⟩ := patForeignKey_has hp
      exact noF (hl2.trans hl) hm
    have s2 : searchWith patReferencesTail s = false := by
      by_contra hx
      rw [Bool.not_eq_false] at hx
      obtain ⟨l, hl, hp⟩ := searchWith_exists hx
      obtain ⟨l2, hl2, hm⟩ := patReferencesTail_has hp
      exact noR (hl2.trans hl) hm
    have s3 : searchWith patConstraintFK s = false := by
      by_contra hx
      rw [Bool.not_eq_false] at hx
      obtain ⟨l, hl, hp⟩ := searchWith_exists hx
      obtain ⟨l2, hl2, hm⟩ := patConstraintFK_has hp
      exact noF (hl2.trans hl) hm
    have s4 : searchWith patAlterAddFK s = false := by
      by_contra hx
      rw [Bool.not_eq_false] at hx
      obtain ⟨l, hl, hp⟩ := searchWith_exists hx
      obtain ⟨l2, hl2, hm⟩ := patAlterAddFK_has hp
      exact noF (hl2.trans hl) hm
    have s5 : searchWith patAlterAddConstraintFK s = false := by
      by_contra hx
      rw [Bool.not_eq_false] at hx
      obtain ⟨l, hl, hp⟩ := searchWith_exists hx
      obtain ⟨l2, hl2, hm⟩ := patAlterAddConstraintFK_has hp
      exact noF (hl2.trans hl) hm
    have s6 : searchWith patAlterAddReferences s = false := by
      by_contra hx
      rw [Bool.not_eq_false] at hx
      obtain ⟨l, hl, hp⟩ := searchWith_exists hx
      obtain ⟨l2, hl2, hm⟩ := patAlterAddReferences_has hp
      exact noR (hl2.trans hl) hm
    have s7 : searchWith patWithCheckAddFK s = false := by
      by_contra hx
      rw [Bool.not_eq_false] at hx
      obtain ⟨l, hl, hp⟩ := searchWith_exists hx
      obtain ⟨l2, hl2, hm⟩ := patWithCheckAddFK_has hp
      exact noF (hl2.trans hl) hm
    rw [s1, s2, s3, s4, s5, s6, s7]
    rfl

theorem patForeignKey_at (r : List Char) :
    patForeignKey ("FOREIGN KEY".toList ++ r) = true := by
  have hsplit : "FOREIGN KEY".toList =
      "FOREIGN".toList ++ (' ' :: "KEY".toList) := rfl
  have hkey : litThen "KEY".toList patEnd ("KEY".toList ++ r) = true := by
    unfold litThen
    rw [matchKeyword_append]
    rfl
  unfold patForeignKey litThen
  rw [hsplit, List.append_assoc, matchKeyword_append]
  show wsThen (litThen "KEY".toList patEnd) (' ' :: ("KEY".toList ++ r)) = true
  simp only [wsThen]
  rw [hkey]
  rfl

theorem checkEnforcedL_of_fk (u w : List Char) :
    checkEnforcedL (u ++ ("FOREIGN KEY".toList ++ w)) = true := by
  unfold checkEnforcedL
  rw [if_neg (by simp)]
  have hs : searchWith patForeignKey (u ++ ("FOREIGN KEY".toList ++ w)) = true :=
    searchWith_of_suffix (List.suffix_append u _) (patForeignKey_at w)
  rw [hs]
  rfl

theorem check_fk_sub (u w : List Char) {s : String}
    (h : s.toList = u ++ ("FOREIGN KEY".toList ++ w)) :
    check_enforced_dependencies s = true := by
  unfold check_enforced_dependencies
  rw [h]
  exact checkEnforcedL_of_fk u w

/-- **C6**: a create script containing an
`ALTER TABLE ... ADD CONSTRAINT ... FOREIGN KEY ...` statement is reported as
having enforced dependencies; a script with no foreign-key-related text — no
case-insensitive occurrence of `FOREIGN` or `REFERENCES`, which every one of
the seven patterns requires — is reported as not having any, and so is the
empty (or missing) script. -/
theorem c6_enforced_detection :
    (∀ a b c d : String,
      check_enforced_dependencies
        (a ++ "ALTER TABLE " ++ b ++ " ADD CONSTRAINT " ++ c ++
          " FOREIGN KEY " ++ d) = true) ∧
    (∀ s : String, containsCI "FOREIGN".toList s.toList = false →
      containsCI "REFERENCES".toList s.toList = false →
      check_enforced_dependencies s = false) ∧
    check_enforced_dependencies "" = false := by
  refine ⟨?_, ?_, rfl⟩
  · intro a b c d
    refine check_fk_sub
      (a.toList ++ ("ALTER TABLE ".toList ++ (b.toList ++
        (" ADD CONSTRAINT ".toList ++ (c.toList ++ [' '])))))
      (' ' :: d.toList) ?_
    show (a ++ "ALTER TABLE " ++ b ++ " ADD CONSTRAINT " ++ c ++
      " FOREIGN KEY " ++ d).data = _
    have hlit : " FOREIGN KEY ".data =
        ' ' :: ("FOREIGN KEY".data ++ [' ']) := rfl
    simp only [String.toList, String.data_append, hlit, List.append_assoc,
      List.cons_append, List.singleton_append, List.nil_append]
  · intro s hF hR
    exact checkEnforcedL_false hF hR

/-- Witness for C6 at concrete scripts. -/
theorem c6_enforced_detection_witness :
    check_enforced_dependencies
      ("x" ++ "ALTER TABLE " ++ "t" ++ " ADD CONSTRAINT " ++ "c" ++
        " FOREIGN KEY " ++ "(a) REFERENCES o") = true ∧
    (containsCI "FOREIGN".toList "CREATE TABLE t (a int)".toList = false ∧
     containsCI "REFERENCES".toList "CREATE TABLE t (a int)".toList = false ∧
     check_enforced_dependencies "CREATE TABLE t (a int)" = false) ∧
    check_enforced_dependencies "" = false :=
  ⟨c6_enforced_detection.1 "x" "t" "c" "(a) REFERENCES o",
   ⟨by decide, by decide,
    c6_enforced_detection.2.1 "CREATE TABLE t (a int)" (by decide) (by decide)⟩,
   c6_enforced_detection.2.2⟩

/-!
## Claim C8: per-object failure isolation in the collection pass
-/

theorem collectTables_append (ddl : String → Except String (Option String)) :
    ∀ (l1 l2 : List String),
      collectTables ddl (l1 ++ l2) =
        collectTables ddl l1 ++ collectTables ddl l2 := by
  intro l1
  induction l1 with
  | nil => intro l2; rfl
  | cons t ts ih =>
    intro l2
    rw [List.cons_append]
    simp only [collectTables]
    cases get_complete_table_definition ddl t with
    | none => exact ih l2
    | some d =>
      dsimp only
      by_cases hd : d.isEmpty = true
      · rw [if_pos hd, if_pos hd]; exact ih l2
      · rw [if_neg hd, if_neg hd, ih l2, List.cons_append]

/-- **C8**: if reconstructing one table's DDL raises (the oracle returns
`.error`), the exception is caught: no cache entry is ever produced under
that table's name, and the collection over a list containing the failing
table equals the collection over the surrounding tables — the pass continues
instead of aborting. -/
theorem c8_reconstruction_failure_isolated
    (ddl : String → Except String (Option String)) (t0 : String) (e : String)
    (herr : ddl t0 = Except.error e) :
    (∀ (tables : List String) (r : ObjScript),
      r ∈ collectTables ddl tables → r.name ≠ t0) ∧
    (∀ l1 l2 : List String,
      collectTables ddl (l1 ++ t0 :: l2) =
        collectTables ddl l1 ++ collectTables ddl l2) := by
  have hnone : get_complete_table_definition ddl t0 = none := by
    unfold get_complete_table_definition
    rw [herr]
  constructor
  · intro tables
    induction tables with
    | nil => intro r hr; cases hr
    | cons t ts ih =>
      intro r hr
      simp only [collectTables] at hr
      cases hgd : get_complete_table_definition ddl t with
      | none =>
        rw [hgd] at hr
        exact ih r hr
      | some d =>
        rw [hgd] at hr
        dsimp only at hr
        by_cases hd : d.isEmpty = true
        · rw [if_pos hd] at hr
          exact ih r hr
        · rw [if_neg hd] at hr
          rcases List.mem_cons.mp hr with rfl | hr
          · intro hq
            have ht : t = t0 := hq
            subst ht
            rw [hnone] at hgd
            cases hgd
          · exact ih r hr
  · intro l1 l2
    rw [collectTables_append]
    congr 1
    simp only [collectTables, hnone]

/-- Failing-table oracle for the C8 witness. -/
def ddlC8 : String → Except String (Option String) := fun t =>
  if t = "dbo.Bad" then Except.error "boom" else Except.ok (some "D")

/-- Witness for C8: with a concrete failing table between two good ones, the
failing table is absent and the others are collected. -/
theorem c8_reconstruction_failure_isolated_witness :
    (∀ (tables : List String) (r : ObjScript),
      r ∈ collectTables ddlC8 tables → r.name ≠ "dbo.Bad") ∧
    (∀ l1 l2 : List String,
      collectTables ddlC8 (l1 ++ "dbo.Bad" :: l2) =
        collectTables ddlC8 l1 ++ collectTables ddlC8 l2) :=
  c8_reconstruction_failure_isolated ddlC8 "dbo.Bad" "boom" (by rfl)

end SchemaResolver
